import Mathlib

/-!
Verification development for the task-management repository's billing core:
the billing-period resolution (`src/billing/billing.ts`), the invoice
line-merging and totals logic (`src/invoice/invoice.ts`), and the invoice
assembly around them.

The TypeScript source is shallowly embedded: machine numbers for hours and
rates become `Rat` (the source manipulates decimal values), calendar
arithmetic performed through the JS `Date` object becomes explicit
year/month/day arithmetic, and the JS `Map` used for merging becomes an
insertion-ordered association list.  JS `undefined` (which arises in
`getBillingPeriod` when the invoice-day schedule is empty, since
`sortedDates[sortedDates.length - 1]` is then `undefined`) is modelled by
`Option`.  Month indices follow `Date.getMonth`: 0 = January .. 11 =
December.  Locale-dependent month names (`toLocaleString`) are modelled by a
fixed English table, and JS string comparison (`<` / `localeCompare` on ISO
date strings and plain ASCII identifiers) by Lean's lexicographic `String`
order.
-/

namespace TaskMgmt

/-- Leap-year test of the Gregorian calendar, as implemented by the JS `Date`
object used in `billing.ts`. -/
def isLeapYear (y : Nat) : Bool :=
  (y % 4 == 0 && y % 100 != 0) || y % 400 == 0

/-- Number of days of month `month` (0-indexed, as returned by `getMonth`) in
year `year`; this is the value of `new Date(year, month + 1, 0).getDate()`
computed at `billing.ts:55`. -/
def daysInMonth0 (year month : Nat) : Nat :=
  if month == 1 then (if isLeapYear year then 29 else 28)
  else if month == 3 || month == 5 || month == 8 || month == 10 then 30
  else 31

/-- English month name of a 0-indexed month, the deterministic model of
`toLocaleString('default', ...)` used for the period label. -/
def monthName (m : Nat) : String :=
  match m with
  | 0 => "January"
  | 1 => "February"
  | 2 => "March"
  | 3 => "April"
  | 4 => "May"
  | 5 => "June"
  | 6 => "July"
  | 7 => "August"
  | 8 => "September"
  | 9 => "October"
  | 10 => "November"
  | 11 => "December"
  | _ => "Invalid Date"

/-- Month index actually displayed by `new Date(year, month, day)` for
0-indexed `month ≤ 11` and `day ≤ 31`: JS normalizes an out-of-range
day-of-month into the neighbouring month (day 0 is the last day of the
previous month, day past the month length overflows into the next month). -/
def jsMonthOfYMD (year month day : Nat) : Nat :=
  if day == 0 then (if month == 0 then 11 else month - 1)
  else if day ≤ daysInMonth0 year month then month
  else (month + 1) % 12

/-- Zero-padding to two characters, the model of
`String(n).padStart(2, '0')` from `billing.ts:85`. -/
def pad2 (n : Nat) : String :=
  if n < 10 then "0" ++ toString n else toString n

/-- JS template interpolation of a possibly-`undefined` number
(no padding). -/
def showOptNat : Option Nat → String
  | some n => toString n
  | none => "undefined"

/-- JS `String(x).padStart(2, '0')` for a possibly-`undefined` number:
`String(undefined)` is the 9-character string `"undefined"`, on which
`padStart(2, ...)` is a no-op. -/
def padShowOptNat : Option Nat → String
  | some n => pad2 n
  | none => "undefined"

/-- Numeric value of a decimal digit character, `none` otherwise. -/
def charDigit? (c : Char) : Option Nat :=
  if '0' ≤ c ∧ c ≤ '9' then some (c.toNat - '0'.toNat) else none

/-- Accumulating evaluation of a digit string. -/
def digitsValAux : List Char → Nat → Option Nat
  | [], acc => some acc
  | c :: cs, acc =>
    match charDigit? c with
    | some d => digitsValAux cs (acc * 10 + d)
    | none => none

/-- Value of a non-empty all-digit character list. -/
def digitsVal? (cs : List Char) : Option Nat :=
  match cs with
  | [] => none
  | _ => digitsValAux cs 0

/-- Split a character list at every dash. -/
def splitDashes : List Char → List (List Char)
  | [] => [[]]
  | c :: rest =>
    let r := splitDashes rest
    if c = '-' then [] :: r
    else
      match r with
      | [] => [[c]]
      | g :: gs => (c :: g) :: gs

/-- Reading of a well-formed ISO `YYYY-MM-DD` date string into
(year, month 1-12, day); the model of `new Date(dateStr + 'T00:00:00')`
from `billing.ts:8` on the well-formed dates the core feeds it (malformed
dates are a documented precondition violation of the source). -/
def parseDate (s : String) : Option (Nat × Nat × Nat) :=
  match (splitDashes s.data).map digitsVal? with
  | [some y, some m, some d] => some (y, m, d)
  | _ => none

/-- The result record of `getBillingPeriod` (`billing.ts:19-87`), extended
with the function's local variables (billing year/month/day and the period
start/end days) so that theorems can speak about them directly.  The source
returns the `billingDate` and `periodLabel` fields; the other fields are the
values of the local variables from which those two strings are built.
`billingDay`/`periodStartDay` are `Option Nat` because on an empty schedule
the JS code computes `undefined` for them. -/
structure BillingResult where
  billingYear : Nat
  billingMonth : Nat
  billingDay : Option Nat
  periodStartDay : Option Nat
  periodEndDay : Nat
  billingDate : String
  periodLabel : String
deriving Repr, DecidableEq

/-- Choice of the billing day/month/year, from `billing.ts:19-44`.
`sortedDates.getLast?` models `sortedDates[sortedDates.length - 1]`, which
is `undefined` (the `none` branch) exactly when the schedule is empty; JS
`day < undefined` is `false`, so the empty case falls into the `else`
branch where `sortedDates[0]` is again `undefined`.  The `for` loop at
lines 27-35 takes the first sorted entry strictly greater than `day`,
defaulting to `lastInvoiceDate`. -/
def resolveBillingDay (sortedDates : List Nat) (year month day : Nat) :
    Option Nat × Nat × Nat :=
  match sortedDates.getLast? with
  | some lastInvoiceDate =>
    if day < lastInvoiceDate then
      (some ((sortedDates.find? (fun v => day < v)).getD lastInvoiceDate), month, year)
    else if month + 1 > 11 then (sortedDates.head?, 0, year + 1)
    else (sortedDates.head?, month + 1, year)
  | none =>
    if month + 1 > 11 then (none, 0, year + 1)
    else (none, month + 1, year)

/-- The `previousInvoiceDate` local of `billing.ts:58-61`: the sorted entry
just before `bd`, wrapping to the last entry when `bd` sits at index 0. -/
def previousInvoiceDate (sortedDates : List Nat) (bd : Nat) : Nat :=
  if sortedDates.indexOf bd == 0 then (sortedDates.getLast?).getD 0
  else (sortedDates[sortedDates.indexOf bd - 1]?).getD 0

/-- The `periodStartDay` computation of `billing.ts:65-71`: the previous
invoice date, replaced by day 1 when that previous date is the first
schedule entry while the billing day is not. -/
def periodStartOf (sortedDates : List Nat) (billingDay : Option Nat) (bd : Nat) : Nat :=
  if some (previousInvoiceDate sortedDates bd) == sortedDates.head? &&
      !(billingDay == sortedDates.head?) then 1
  else previousInvoiceDate sortedDates bd

/-- Computation of the period start and end days, from `billing.ts:46-73`.  The
second branch is only reachable with a non-empty schedule and `billingDay` a
member of it, so the `getD 0` defaults are never exercised on reachable
inputs. -/
def resolvePeriodDays (sortedDates : List Nat) (year month : Nat)
    (billingDay : Option Nat) (billingMonth : Nat) : Option Nat × Nat :=
  if billingDay == sortedDates.head? && !(billingMonth == month) then
    (sortedDates.getLast?, daysInMonth0 year month)
  else
    (some (periodStartOf sortedDates billingDay (billingDay.getD 0)),
      billingDay.getD 0 - 1)

/-- Embedding of `getBillingPeriod` from `billing.ts:7-88`, with the configured invoice
dates (`getInvoiceDates()`) and the already-parsed task date passed
explicitly (`month` is 0-indexed, as produced by `getMonth`).  The source's
`[...invoiceDates].sort((a, b) => a - b)` is the ascending sort of the
schedule. -/
def getBillingPeriod (invoiceDates : List Nat) (year month day : Nat) : BillingResult :=
  let sortedDates := List.insertionSort (· ≤ ·) invoiceDates
  let r := resolveBillingDay sortedDates year month day
  let billingDay := r.1
  let billingMonth := r.2.1
  let billingYear := r.2.2
  let p := resolvePeriodDays sortedDates year month billingDay billingMonth
  let billingMonthName :=
    match billingDay with
    | some d => monthName (jsMonthOfYMD billingYear billingMonth d)
    | none => "Invalid Date"
  let currentMonthName := monthName month
  let periodLabel :=
    currentMonthName ++ " " ++ showOptNat p.1 ++ "-" ++ toString p.2 ++
      " (Billed: " ++ billingMonthName ++ " " ++ showOptNat billingDay ++ ")"
  let billingDate :=
    toString billingYear ++ "-" ++ pad2 (billingMonth + 1) ++ "-" ++ padShowOptNat billingDay
  { billingYear := billingYear, billingMonth := billingMonth, billingDay := billingDay,
    periodStartDay := p.1, periodEndDay := p.2,
    billingDate := billingDate, periodLabel := periodLabel }

example :
    (getBillingPeriod [1, 15] 2024 0 5).billingDate = "2024-01-15" := by decide

example :
    (getBillingPeriod [1, 15] 2024 0 15).billingDate = "2024-02-01" := by decide

example :
    (getBillingPeriod [1, 15] 2024 0 5).periodLabel =
      "January 1-14 (Billed: January 15)" := by decide

example :
    (getBillingPeriod [1, 15] 2024 0 20).periodLabel =
      "January 15-31 (Billed: February 1)" := by decide

example :
    (getBillingPeriod [15, 1] 2024 11 20).billingDate = "2025-01-01" := by decide

example :
    (getBillingPeriod [] 2024 0 10).billingDate = "2024-02-undefined" := by decide

/-- ISO `YYYY-MM-DD` rendering of a date (1-indexed month), the format used
by `getBillingPeriod` at `billing.ts:85` and by
`toISOString().split('T')[0]` at `billing.ts:102` (the model treats the
runtime's local calendar as the output calendar; the spec declares timezone
handling a non-goal). -/
def formatISO (y m d : Nat) : String :=
  toString y ++ "-" ++ pad2 m ++ "-" ++ pad2 d

/-- Number of days of 1-indexed month `m` in year `y`. -/
def daysInMonth (y m : Nat) : Nat := daysInMonth0 y (m - 1)

/-- Successor day in the Gregorian calendar on (year, month 1-12, day),
the single-day step of the normalization JS performs in
`dueDate.setDate(dueDate.getDate() + paymentTerms)` (`billing.ts:99`). -/
def nextDay : Nat × Nat × Nat → Nat × Nat × Nat
  | (y, m, d) =>
    if d < daysInMonth y m then (y, m, d + 1)
    else if m < 12 then (y, m + 1, 1)
    else (y + 1, 1, 1)

/-- Adding `n` calendar days, with the standard month/year rollover. -/
def addDays (ymd : Nat × Nat × Nat) (n : Nat) : Nat × Nat × Nat :=
  Nat.iterate nextDay n ymd

/-- Embedding of `calculateDueDate` from `billing.ts:93-103`, with the configured payment
terms (`getPaymentTerms()`) passed explicitly.  A malformed date string is a
documented precondition violation (the JS code would throw on
`toISOString`); the model returns `""` there. -/
def calculateDueDate (billingDateStr : String) (paymentTerms : Nat) : String :=
  match parseDate billingDateStr with
  | some (y, m, d) =>
    let t := addDays (y, m, d) paymentTerms
    formatISO t.1 t.2.1 t.2.2
  | none => ""

example : calculateDueDate "2024-01-01" 15 = "2024-01-16" := by decide
example : calculateDueDate "2024-12-20" 15 = "2025-01-04" := by decide
example : calculateDueDate "2024-02-27" 3 = "2024-03-01" := by decide

/-- Validity of a (year, month 1-12, day) triple. -/
def ValidYmd (y m d : Nat) : Prop :=
  1 ≤ m ∧ m ≤ 12 ∧ 1 ≤ d ∧ d ≤ daysInMonth y m

instance (y m d : Nat) : Decidable (ValidYmd y m d) := by
  unfold ValidYmd; infer_instance

/-- Number of leap years strictly below `y` (proleptic Gregorian). -/
def leapsBelow : Nat → Nat
  | 0 => 0
  | y + 1 => leapsBelow y + (if isLeapYear y then 1 else 0)

/-- Days in all years strictly before year `y`. -/
def daysBeforeYear (y : Nat) : Nat := 365 * y + leapsBelow y

/-- Days in the months of year `y` strictly before 1-indexed month `m`. -/
def daysBeforeMonth (y : Nat) : Nat → Nat
  | 0 => 0
  | 1 => 0
  | m + 2 => daysBeforeMonth y (m + 1) + daysInMonth y (m + 1)

/-- Linear day count of a calendar date: the number of days strictly before
it since day 1-1-1 of year 0.  Two dates are `n` apart exactly when their
day counts differ by `n`. -/
def toRataDie (y m d : Nat) : Nat :=
  daysBeforeYear y + daysBeforeMonth y m + (d - 1)

/-- Record `TaskEntry` from `src/types/index.ts`: one logged work session.  Hours
and rate are decimal values in the source and are modelled by `Rat`. -/
structure TaskEntry where
  id : String
  date : String
  time : String
  activityType : String
  ticketNumber : Option String
  hoursWorked : Rat
  client : String
  rate : Rat
deriving Repr, DecidableEq

/-- The merge key of `invoice.ts:191-192`: `task.ticketNumber || ''`
(JS `||` sends both `undefined` and the empty string to `''`) concatenated
after the activity type with a `'|'` separator. -/
def mergeKey (t : TaskEntry) : String :=
  t.activityType ++ "|" ++ t.ticketNumber.getD ""

/-- One entry of the `tasksByKey` map of `invoice.ts:177-187`: a merged
invoice line item. -/
structure MergedGroup where
  date : String
  activityType : String
  ticketNumber : Option String
  totalHours : Rat
  rate : Rat
  tasks : List TaskEntry
deriving Repr, DecidableEq

/-- The fresh group installed for an unseen key (`invoice.ts:194-203`):
hours start at 0, the rate and descriptive fields are the current task's. -/
def freshGroup (t : TaskEntry) : MergedGroup :=
  { date := t.date, activityType := t.activityType, ticketNumber := t.ticketNumber,
    totalHours := 0, rate := t.rate, tasks := [] }

/-- The per-task update of its group (`invoice.ts:209-215`): add the hours,
append the task, and pull the group's date back to the earlier of the two
(JS `<` on ISO date strings is lexicographic, hence chronological). -/
def addTask (g : MergedGroup) (t : TaskEntry) : MergedGroup :=
  { g with totalHours := g.totalHours + t.hoursWorked,
           tasks := g.tasks ++ [t],
           date := if t.date < g.date then t.date else g.date }

/-- One iteration of the merging loop of `invoice.ts:189-216` on the
insertion-ordered association list modelling the JS `Map`: install a fresh
group if the key is unseen, then update the (unique) group of the key. -/
def insertTask (acc : List (String × MergedGroup)) (t : TaskEntry) :
    List (String × MergedGroup) :=
  (if (acc.find? (fun p => p.1 == mergeKey t)).isSome then acc
   else acc ++ [(mergeKey t, freshGroup t)]).map
    (fun p => if p.1 == mergeKey t then (p.1, addTask p.2 t) else p)

/-- The fully built `tasksByKey` map (`invoice.ts:189-216`), as an
association list in JS `Map` insertion order. -/
def mergeGroups (ts : List TaskEntry) : List (String × MergedGroup) :=
  ts.foldl insertTask []

/-- The comparator of `invoice.ts:219-223` as a relation: earlier date
first, ties broken by activity type. -/
def mgLE (a b : MergedGroup) : Prop :=
  a.date < b.date ∨ (a.date = b.date ∧ a.activityType ≤ b.activityType)

instance : DecidableRel mgLE := fun a b => by unfold mgLE; infer_instance

instance : IsTotal MergedGroup mgLE :=
  ⟨fun a b => by
    unfold mgLE
    rcases lt_trichotomy a.date b.date with h | h | h
    · exact Or.inl (Or.inl h)
    · rcases le_total a.activityType b.activityType with h' | h'
      · exact Or.inl (Or.inr ⟨h, h'⟩)
      · exact Or.inr (Or.inr ⟨h.symm, h'⟩)
    · exact Or.inr (Or.inl h)⟩

instance : IsTrans MergedGroup mgLE :=
  ⟨fun a b c hab hbc => by
    unfold mgLE at *
    rcases hab with hab | ⟨hab, hab'⟩
    · rcases hbc with hbc | ⟨hbc, _⟩
      · exact Or.inl (hab.trans hbc)
      · exact Or.inl (hbc ▸ hab)
    · rcases hbc with hbc | ⟨hbc, hbc'⟩
      · exact Or.inl (hab ▸ hbc)
      · exact Or.inr ⟨hab.trans hbc, hab'.trans hbc'⟩⟩

/-- Embedding of `Array.from(tasksByKey.values()).sort(...)` (`invoice.ts:219-223`): the
line items in final invoice order. -/
def mergedTasks (ts : List TaskEntry) : List MergedGroup :=
  List.insertionSort mgLE ((mergeGroups ts).map Prod.snd)

/-- The totals loop of `invoice.ts:226-232`: hours summed over the merged
line items. -/
def totalHoursOf (ts : List TaskEntry) : Rat :=
  ((mergedTasks ts).map MergedGroup.totalHours).sum

/-- The totals loop of `invoice.ts:226-232`: the amount is accumulated per
merged line as `line.totalHours * line.rate` with the line's single
(first-seen) rate. -/
def totalAmountOf (ts : List TaskEntry) : Rat :=
  ((mergedTasks ts).map (fun g => g.totalHours * g.rate)).sum

/-- Modelled from the spec (§4.2 computeTotals): the per-source-task total
amount the specification describes, for comparison with the source's
per-merged-line computation. -/
def specTaskAmount (ts : List TaskEntry) : Rat :=
  (ts.map (fun t => t.hoursWorked * t.rate)).sum

/-- Per-source-task total hours. -/
def sumHours (ts : List TaskEntry) : Rat :=
  (ts.map TaskEntry.hoursWorked).sum

/-- The member tasks of key `k`, in input order. -/
def tasksWithKey (k : String) (ts : List TaskEntry) : List TaskEntry :=
  ts.filter (fun t => mergeKey t == k)

/-- Left fold computing the earliest date, matching the update of
`invoice.ts:213-215`. -/
def foldMinDate (d : String) (l : List TaskEntry) : String :=
  l.foldl (fun acc t => if t.date < acc then t.date else acc) d

/-- The group a key with member tasks `t0 :: rest` ends up holding. -/
def groupModel (t0 : TaskEntry) (l : List TaskEntry) : MergedGroup :=
  { date := foldMinDate t0.date l, activityType := t0.activityType,
    ticketNumber := t0.ticketNumber, totalHours := sumHours l,
    rate := t0.rate, tasks := l }

/-- The resolved billing date (the grouping key of
`groupTasksByClientAndBillingPeriod`, `invoice.ts:45-46`) of a task's date
string under a given schedule. -/
def billingKeyOf (schedule : List Nat) (dateStr : String) : String :=
  match parseDate dateStr with
  | some (y, m, d) => (getBillingPeriod schedule y (m - 1) d).billingDate
  | none => ""

/-- The invoice data assembled by `displayInvoice` (`invoice.ts:140-305`)
before rendering: header fields, ordered line items and totals. -/
structure Invoice where
  client : String
  billingDate : String
  dueDate : String
  periodLabel : String
  lineItems : List MergedGroup
  totalHours : Rat
  totalAmount : Rat
deriving Repr, DecidableEq

/-- Outcome of invoice assembly: the `NotFound` early returns of
`invoice.ts:144-167` or a built invoice. -/
inductive InvoiceResult where
  | notFound (msg : String)
  | invoice (inv : Invoice)
deriving Repr, DecidableEq

/-- Embedding of `displayInvoice` (`invoice.ts:140-305`) as a pure assembly function
(the spec's `buildInvoice`), with storage and config threaded explicitly:
filter by exact client, group by resolved billing date (the bucket of
`billingDate` in the map built at `invoice.ts:38-68` holds exactly the
client's tasks whose resolved billing date equals `billingDate`, in input
order), then merge, sort and total.  The source's third guard (empty bucket)
is unreachable because buckets are only created non-empty; it is subsumed by
the `[]` case here.  The embedding is pure, so the input task list is never
mutated. -/
def buildInvoice (schedule : List Nat) (paymentTerms : Nat) (tasks : List TaskEntry)
    (client : String) (billingDate : String) : InvoiceResult :=
  if (tasks.filter (fun t => t.client == client)).isEmpty then
    .notFound "No tasks found for client"
  else
    match (tasks.filter (fun t => t.client == client)).filter
        (fun t => billingKeyOf schedule t.date == billingDate) with
    | [] => .notFound "No billing periods found for billing period"
    | firstTask :: rest =>
      .invoice
        { client := client, billingDate := billingDate,
          dueDate := calculateDueDate billingDate paymentTerms,
          periodLabel :=
            (match parseDate firstTask.date with
              | some (y, m, d) => getBillingPeriod schedule y (m - 1) d
              | none => getBillingPeriod schedule 0 0 0).periodLabel,
          lineItems := mergedTasks (firstTask :: rest),
          totalHours := totalHoursOf (firstTask :: rest),
          totalAmount := totalAmountOf (firstTask :: rest) }

section SortedLemmas

/-- In a `≤`-sorted list the head is a lower bound. -/
theorem sorted_head_le {l : List Nat} (hl : l.Sorted (· ≤ ·)) {a x : Nat}
    (hhead : l.head? = some a) (hx : x ∈ l) : a ≤ x := by
  cases l with
  | nil => cases hx
  | cons b t =>
    simp only [List.head?_cons, Option.some.injEq] at hhead
    subst hhead
    rcases List.mem_cons.1 hx with rfl | hx
    · exact le_refl _
    · exact List.rel_of_sorted_cons hl _ hx

/-- In a `≤`-sorted list the last element is an upper bound. -/
theorem sorted_le_getLast {l : List Nat} (hl : l.Sorted (· ≤ ·)) {a x : Nat}
    (hlast : l.getLast? = some a) (hx : x ∈ l) : x ≤ a := by
  induction l generalizing x with
  | nil => cases hx
  | cons b t ih =>
    cases t with
    | nil =>
      simp only [List.getLast?_singleton, Option.some.injEq] at hlast
      subst hlast
      rcases List.mem_singleton.1 hx with rfl
      exact le_refl _
    | cons c t' =>
      have hlast' : (c :: t').getLast? = some a := by
        simpa [List.getLast?_cons_cons] using hlast
      rcases List.mem_cons.1 hx with rfl | hx2
      · have hca : c ≤ a := ih (List.sorted_cons.1 hl).2 hlast' (List.mem_cons_self _ _)
        exact (List.rel_of_sorted_cons hl c (List.mem_cons_self _ _)).trans hca
      · exact ih (List.sorted_cons.1 hl).2 hlast' hx2

/-- In a `≤`-sorted list, `find?` with the upward-closed predicate
`day < ·` returns the least element above `day`. -/
theorem find?_lt_min {l : List Nat} (hl : l.Sorted (· ≤ ·)) {day v : Nat}
    (h : l.find? (fun x => day < x) = some v) :
    v ∈ l ∧ day < v ∧ ∀ x ∈ l, day < x → v ≤ x := by
  induction l with
  | nil => cases h
  | cons b t ih =>
    by_cases hb : day < b
    · have : (b :: t).find? (fun x => day < x) = some b := by
        simp [List.find?_cons, hb]
      rw [this] at h
      cases h
      refine ⟨(List.mem_cons_self _ _), hb, ?_⟩
      intro x hx _
      rcases List.mem_cons.1 hx with rfl | hx
      · exact le_refl _
      · exact List.rel_of_sorted_cons hl _ hx
    · have : (b :: t).find? (fun x => day < x) = t.find? (fun x => day < x) := by
        simp [List.find?_cons, hb]
      rw [this] at h
      obtain ⟨hv, hdv, hmin⟩ := ih (List.sorted_cons.1 hl).2 h
      refine ⟨List.mem_cons_of_mem _ hv, hdv, ?_⟩
      intro x hx hdx
      rcases List.mem_cons.1 hx with rfl | hx
      · exact absurd hdx hb
      · exact hmin x hx hdx

/-- A `≤`-sorted list without duplicates is `<`-sorted. -/
theorem sorted_lt_of_nodup {l : List Nat} (h1 : l.Sorted (· ≤ ·)) (h2 : l.Nodup) :
    l.Sorted (· < ·) := by
  unfold List.Sorted at *
  exact (h1.and h2).imp (fun h => lt_of_le_of_ne h.1 h.2)

/-- In a `<`-sorted list, the index of the head is 0. -/
theorem indexOf_head_eq_zero {l : List Nat} {a : Nat} (hhead : l.head? = some a) :
    l.indexOf a = 0 := by
  cases l with
  | nil => cases hhead
  | cons b t =>
    simp only [List.head?_cons, Option.some.injEq] at hhead
    subst hhead
    exact List.indexOf_cons_self _ _

/-- If the index of a member is 0, it is the head. -/
theorem head_of_indexOf_eq_zero {l : List Nat} {bd : Nat} (hbd : bd ∈ l)
    (h : l.indexOf bd = 0) : l.head? = some bd := by
  cases l with
  | nil => cases hbd
  | cons c t =>
    by_cases hc : bd = c
    · simp [hc]
    · rw [List.indexOf_cons_ne t (fun he => hc he.symm)] at h
      cases h

/-- In a `<`-sorted list, the entry just before a non-minimal member `bd` is
the largest member strictly below `bd`. -/
theorem sorted_indexOf_prev {l : List Nat} (hl : l.Sorted (· < ·)) {bd p : Nat}
    (hbd : bd ∈ l) (hp : p ∈ l) (hplt : p < bd)
    (hpmax : ∀ x ∈ l, x < bd → x ≤ p) :
    l.indexOf bd ≠ 0 ∧ l[l.indexOf bd - 1]? = some p := by
  induction l with
  | nil => cases hbd
  | cons a t ih =>
    have hba : bd ≠ a := by
      rintro rfl
      rcases List.mem_cons.1 hp with rfl | hp
      · exact absurd hplt (lt_irrefl _)
      · exact absurd hplt (not_lt_of_gt (List.rel_of_sorted_cons hl _ hp))
    have hbdt : bd ∈ t := (List.mem_cons.1 hbd).resolve_left (fun h => hba h)
    have hidx : (a :: t).indexOf bd = (t.indexOf bd) + 1 :=
      List.indexOf_cons_ne t (fun h => hba h.symm)
    cases ht : t.indexOf bd with
    | zero =>
      -- bd is the head of t; the previous entry is a, and p must be a.
      have hhead : t.head? = some bd := head_of_indexOf_eq_zero hbdt ht
      have hpa : p = a := by
        rcases List.mem_cons.1 hp with rfl | hpt
        · rfl
        · -- p ∈ t with p < bd = head of t: impossible in a <-sorted t.
          cases t with
          | nil => cases hpt
          | cons c t'' =>
            simp only [List.head?_cons, Option.some.injEq] at hhead
            subst hhead
            rcases List.mem_cons.1 hpt with rfl | hpt''
            · exact absurd hplt (lt_irrefl _)
            · exact absurd hplt
                (not_lt_of_gt (List.rel_of_sorted_cons (List.sorted_cons.1 hl).2 _ hpt''))
      refine ⟨by simp [hidx, ht], ?_⟩
      rw [hidx, ht]
      simp [hpa]
    | succ j =>
      have hpt : p ∈ t := by
        rcases List.mem_cons.1 hp with rfl | hpt
        · -- p = a but the head of t lies strictly between a and bd.
          cases t with
          | nil => cases hbdt
          | cons c t'' =>
            have hcbd : c < bd := by
              rcases List.mem_cons.1 hbdt with rfl | hbdt''
              · rw [List.indexOf_cons_self] at ht; cases ht
              · exact List.rel_of_sorted_cons (List.sorted_cons.1 hl).2 _ hbdt''
            have hac : p < c := List.rel_of_sorted_cons hl _ (List.mem_cons_self _ _)
            exact absurd (hpmax c (List.mem_cons_of_mem _ (List.mem_cons_self _ _)) hcbd)
              (not_le_of_lt hac)
        · exact hpt
      obtain ⟨hne, hget⟩ := ih (List.sorted_cons.1 hl).2 hbdt hpt
        (fun x hx hxb => hpmax x (List.mem_cons_of_mem _ hx) hxb)
      refine ⟨by simp [hidx], ?_⟩
      rw [hidx, ht]
      simpa [ht] using hget

/-- The last entry of the ascending sort of `S` is the maximum of `S`. -/
theorem insertionSort_getLast_eq_max (S : List Nat) {L : Nat} (hL : L ∈ S)
    (hLmax : ∀ x ∈ S, x ≤ L) :
    (List.insertionSort (· ≤ ·) S).getLast? = some L := by
  have hperm := List.perm_insertionSort (· ≤ ·) S
  have hsort := List.sorted_insertionSort (· ≤ ·) S
  have hLs : L ∈ List.insertionSort (· ≤ ·) S := hperm.mem_iff.2 hL
  have hne : List.insertionSort (· ≤ ·) S ≠ [] := List.ne_nil_of_mem hLs
  have hlast := List.getLast?_eq_getLast_of_ne_nil hne
  have hmem := List.getLast_mem hne
  have h1 : (List.insertionSort (· ≤ ·) S).getLast hne ≤ L :=
    hLmax _ (hperm.mem_iff.1 hmem)
  have h2 : L ≤ (List.insertionSort (· ≤ ·) S).getLast hne :=
    sorted_le_getLast hsort hlast hLs
  rw [hlast, Nat.le_antisymm h1 h2]

/-- The head of the ascending sort of `S` is the minimum of `S`. -/
theorem insertionSort_head_eq_min (S : List Nat) {F : Nat} (hF : F ∈ S)
    (hFmin : ∀ x ∈ S, F ≤ x) :
    (List.insertionSort (· ≤ ·) S).head? = some F := by
  have hperm := List.perm_insertionSort (· ≤ ·) S
  have hsort := List.sorted_insertionSort (· ≤ ·) S
  have hFs : F ∈ List.insertionSort (· ≤ ·) S := hperm.mem_iff.2 hF
  have hne : List.insertionSort (· ≤ ·) S ≠ [] := List.ne_nil_of_mem hFs
  have hhead : (List.insertionSort (· ≤ ·) S).head? =
      some ((List.insertionSort (· ≤ ·) S).head hne) := List.head?_eq_head hne
  have hmem := List.head_mem hne
  have h1 : F ≤ (List.insertionSort (· ≤ ·) S).head hne := hFmin _ (hperm.mem_iff.1 hmem)
  have h2 : (List.insertionSort (· ≤ ·) S).head hne ≤ F :=
    sorted_head_le hsort hhead hFs
  rw [hhead, Nat.le_antisymm h2 h1]

/-- Field projections of `getBillingPeriod` in terms of its two phases. -/
theorem getBillingPeriod_billingDay (S : List Nat) (year month day : Nat) :
    (getBillingPeriod S year month day).billingDay =
      (resolveBillingDay (List.insertionSort (· ≤ ·) S) year month day).1 := rfl

theorem getBillingPeriod_billingMonth (S : List Nat) (year month day : Nat) :
    (getBillingPeriod S year month day).billingMonth =
      (resolveBillingDay (List.insertionSort (· ≤ ·) S) year month day).2.1 := rfl

theorem getBillingPeriod_billingYear (S : List Nat) (year month day : Nat) :
    (getBillingPeriod S year month day).billingYear =
      (resolveBillingDay (List.insertionSort (· ≤ ·) S) year month day).2.2 := rfl

theorem getBillingPeriod_periodStartDay (S : List Nat) (year month day : Nat) :
    (getBillingPeriod S year month day).periodStartDay =
      (resolvePeriodDays (List.insertionSort (· ≤ ·) S) year month
        (resolveBillingDay (List.insertionSort (· ≤ ·) S) year month day).1
        (resolveBillingDay (List.insertionSort (· ≤ ·) S) year month day).2.1).1 := rfl

theorem getBillingPeriod_periodEndDay (S : List Nat) (year month day : Nat) :
    (getBillingPeriod S year month day).periodEndDay =
      (resolvePeriodDays (List.insertionSort (· ≤ ·) S) year month
        (resolveBillingDay (List.insertionSort (· ≤ ·) S) year month day).1
        (resolveBillingDay (List.insertionSort (· ≤ ·) S) year month day).2.1).2 := rfl

end SortedLemmas

/-- The `billingDate` string is assembled from the billing year, month and day. -/
theorem getBillingPeriod_billingDate (S : List Nat) (year month day : Nat) :
    (getBillingPeriod S year month day).billingDate =
      toString (getBillingPeriod S year month day).billingYear ++ "-" ++
        pad2 ((getBillingPeriod S year month day).billingMonth + 1) ++ "-" ++
        padShowOptNat (getBillingPeriod S year month day).billingDay := rfl

/-- On a day strictly before the largest schedule entry, the billing day is
the least schedule entry strictly above the day, in the same month/year. -/
theorem resolveBillingDay_lt (S : List Nat) (year month day : Nat) {L : Nat}
    (hL : L ∈ S) (hLmax : ∀ x ∈ S, x ≤ L) (hday : day < L) :
    ∃ bd, resolveBillingDay (List.insertionSort (· ≤ ·) S) year month day =
        (some bd, month, year) ∧
      bd ∈ S ∧ day < bd ∧ ∀ x ∈ S, day < x → bd ≤ x := by
  have hperm := List.perm_insertionSort (· ≤ ·) S
  have hsort := List.sorted_insertionSort (· ≤ ·) S
  have hlast := insertionSort_getLast_eq_max S hL hLmax
  unfold resolveBillingDay
  rw [hlast]
  simp only [hday, if_pos]
  cases hfind : (List.insertionSort (· ≤ ·) S).find? (fun v => day < v) with
  | none =>
    have := List.find?_eq_none.1 hfind L (hperm.mem_iff.2 hL)
    simp [hday] at this
  | some v =>
    obtain ⟨hv, hdv, hmin⟩ := find?_lt_min hsort hfind
    exact ⟨v, rfl, hperm.mem_iff.1 hv, hdv,
      fun x hx hdx => hmin x (hperm.mem_iff.2 hx) hdx⟩

/-- On a day at or past the largest schedule entry, the billing day is the
smallest schedule entry, in the next month (rolling the year forward). -/
theorem resolveBillingDay_ge (S : List Nat) (year month day : Nat) {L F : Nat}
    (hL : L ∈ S) (hLmax : ∀ x ∈ S, x ≤ L)
    (hF : F ∈ S) (hFmin : ∀ x ∈ S, F ≤ x) (hday : L ≤ day) :
    resolveBillingDay (List.insertionSort (· ≤ ·) S) year month day =
      (some F, if month + 1 > 11 then 0 else month + 1,
        if month + 1 > 11 then year + 1 else year) := by
  have hlast := insertionSort_getLast_eq_max S hL hLmax
  have hhead := insertionSort_head_eq_min S hF hFmin
  unfold resolveBillingDay
  rw [hlast, hhead]
  have hnot : ¬ day < L := not_lt_of_ge hday
  by_cases h11 : month + 1 > 11 <;> simp [hnot, h11]

/-- Claim C1: for a valid date and a non-empty schedule, `getBillingPeriod`
resolves the billing day as follows.  If the task's day-of-month is strictly
below the largest schedule entry `L`, the billing day is the smallest
schedule entry strictly greater than the day, in the same month and year; if
the day is at or past `L` (including exactly equal), the billing day is the
smallest schedule entry `F` of the next month, with the year incremented
when the month is December (0-indexed month 11). -/
theorem getBillingPeriod_resolution
    (S : List Nat) (year month day : Nat) (L F : Nat)
    (hL : L ∈ S) (hLmax : ∀ x ∈ S, x ≤ L)
    (hF : F ∈ S) (hFmin : ∀ x ∈ S, F ≤ x)
    (hm : month ≤ 11) :
    (day < L →
      ∃ bd, (getBillingPeriod S year month day).billingDay = some bd ∧
        bd ∈ S ∧ day < bd ∧ (∀ x ∈ S, day < x → bd ≤ x) ∧
        (getBillingPeriod S year month day).billingMonth = month ∧
        (getBillingPeriod S year month day).billingYear = year) ∧
    (L ≤ day →
      (getBillingPeriod S year month day).billingDay = some F ∧
      (month < 11 →
        (getBillingPeriod S year month day).billingMonth = month + 1 ∧
        (getBillingPeriod S year month day).billingYear = year) ∧
      (month = 11 →
        (getBillingPeriod S year month day).billingMonth = 0 ∧
        (getBillingPeriod S year month day).billingYear = year + 1)) := by
  constructor
  · intro hday
    obtain ⟨bd, heq, hmem, hdb, hmin⟩ := resolveBillingDay_lt S year month day hL hLmax hday
    refine ⟨bd, ?_, hmem, hdb, hmin, ?_, ?_⟩
    · rw [getBillingPeriod_billingDay, heq]
    · rw [getBillingPeriod_billingMonth, heq]
    · rw [getBillingPeriod_billingYear, heq]
  · intro hday
    have heq := resolveBillingDay_ge S year month day hL hLmax hF hFmin hday
    refine ⟨?_, ?_, ?_⟩
    · rw [getBillingPeriod_billingDay, heq]
    · intro hlt
      have h11 : ¬ month + 1 > 11 := by omega
      constructor
      · rw [getBillingPeriod_billingMonth, heq]; simp [h11]
      · rw [getBillingPeriod_billingYear, heq]; simp [h11]
    · intro h11'
      have h11 : month + 1 > 11 := by omega
      constructor
      · rw [getBillingPeriod_billingMonth, heq]; simp [h11]
      · rw [getBillingPeriod_billingYear, heq]; simp [h11]

/-- Witness for C1 on the schedule `[1, 15]`: January 5, 2024 bills on the
15th of the same month, and January 15 on the 1st of February. -/
theorem getBillingPeriod_resolution_witness :
    (∃ bd, (getBillingPeriod [1, 15] 2024 0 5).billingDay = some bd ∧
        bd ∈ [1, 15] ∧ 5 < bd ∧ (∀ x ∈ [1, 15], 5 < x → bd ≤ x) ∧
        (getBillingPeriod [1, 15] 2024 0 5).billingMonth = 0 ∧
        (getBillingPeriod [1, 15] 2024 0 5).billingYear = 2024) ∧
    ((getBillingPeriod [1, 15] 2024 0 15).billingDay = some 1 ∧
      (0 < 11 →
        (getBillingPeriod [1, 15] 2024 0 15).billingMonth = 0 + 1 ∧
        (getBillingPeriod [1, 15] 2024 0 15).billingYear = 2024) ∧
      ((0 : Nat) = 11 →
        (getBillingPeriod [1, 15] 2024 0 15).billingMonth = 0 ∧
        (getBillingPeriod [1, 15] 2024 0 15).billingYear = 2024 + 1)) :=
  ⟨(getBillingPeriod_resolution [1, 15] 2024 0 5 15 1 (by decide) (by decide)
      (by decide) (by decide) (by decide)).1 (by decide),
   (getBillingPeriod_resolution [1, 15] 2024 0 15 15 1 (by decide) (by decide)
      (by decide) (by decide) (by decide)).2 (by decide)⟩

/-- Claim C10: for a non-empty schedule the resolved billing day is always a
member of the schedule, and it is the day-of-month component of the returned
`billingDate` string. -/
theorem resolveBillingDay_mem (S : List Nat) (hS : S ≠ []) (year month day : Nat) :
    ∃ bd, (resolveBillingDay (List.insertionSort (· ≤ ·) S) year month day).1 = some bd ∧
      bd ∈ List.insertionSort (· ≤ ·) S := by
  have hperm := List.perm_insertionSort (· ≤ ·) S
  have hne : List.insertionSort (· ≤ ·) S ≠ [] := by
    intro h
    exact hS (List.Perm.eq_nil (h ▸ hperm.symm))
  have hlast := List.getLast?_eq_getLast_of_ne_nil hne
  have hhead := List.head?_eq_head hne
  unfold resolveBillingDay
  rw [hlast]
  by_cases hday : day < (List.insertionSort (· ≤ ·) S).getLast hne
  · simp only [hday, if_pos]
    cases hfind : (List.insertionSort (· ≤ ·) S).find? (fun v => day < v) with
    | none =>
      exact ⟨_, rfl, List.getLast_mem hne⟩
    | some v =>
      exact ⟨v, rfl, List.mem_of_find?_eq_some hfind⟩
  · have hmem := List.head_mem hne
    by_cases h11 : month + 1 > 11 <;> simp [hday, h11, hhead] <;>
      exact hperm.mem_iff.1 hmem

theorem getBillingPeriod_day_mem_schedule
    (S : List Nat) (hS : S ≠ []) (year month day : Nat) :
    ∃ bd, (getBillingPeriod S year month day).billingDay = some bd ∧ bd ∈ S ∧
      (getBillingPeriod S year month day).billingDate =
        toString (getBillingPeriod S year month day).billingYear ++ "-" ++
          pad2 ((getBillingPeriod S year month day).billingMonth + 1) ++ "-" ++
          pad2 bd := by
  have hperm := List.perm_insertionSort (· ≤ ·) S
  obtain ⟨bd, heq, hmem⟩ := resolveBillingDay_mem S hS year month day
  refine ⟨bd, ?_, hperm.mem_iff.1 hmem, ?_⟩
  · rw [getBillingPeriod_billingDay, heq]
  · rw [getBillingPeriod_billingDate, getBillingPeriod_billingDay, heq]; rfl

/-- Witness for C10 at the schedule `[10, 25]` and date 2024-03-27. -/
theorem getBillingPeriod_day_mem_schedule_witness :
    ∃ bd, (getBillingPeriod [10, 25] 2024 2 27).billingDay = some bd ∧ bd ∈ [10, 25] ∧
      (getBillingPeriod [10, 25] 2024 2 27).billingDate =
        toString (getBillingPeriod [10, 25] 2024 2 27).billingYear ++ "-" ++
          pad2 ((getBillingPeriod [10, 25] 2024 2 27).billingMonth + 1) ++ "-" ++
          pad2 bd :=
  getBillingPeriod_day_mem_schedule [10, 25] (by decide) 2024 2 27

/-- Claim C8: `getBillingPeriod` only depends on the sorted schedule, so two
schedules that are permutations of one another produce the same billing date
and the same period label on every date. -/
theorem getBillingPeriod_schedule_order_independent
    (S₁ S₂ : List Nat) (h : S₁.Perm S₂) (year month day : Nat) :
    (getBillingPeriod S₁ year month day).billingDate =
      (getBillingPeriod S₂ year month day).billingDate ∧
    (getBillingPeriod S₁ year month day).periodLabel =
      (getBillingPeriod S₂ year month day).periodLabel := by
  have hsorted : List.insertionSort (· ≤ ·) S₁ = List.insertionSort (· ≤ ·) S₂ :=
    List.eq_of_perm_of_sorted
      ((List.perm_insertionSort _ S₁).trans (h.trans (List.perm_insertionSort _ S₂).symm))
      (List.sorted_insertionSort _ S₁) (List.sorted_insertionSort _ S₂)
  unfold getBillingPeriod
  rw [hsorted]
  exact ⟨rfl, rfl⟩

/-- Witness for C8 on the spec's example pair `[1, 15]` and `[15, 1]`. -/
theorem getBillingPeriod_schedule_order_independent_witness :
    (getBillingPeriod [1, 15] 2024 0 20).billingDate =
      (getBillingPeriod [15, 1] 2024 0 20).billingDate ∧
    (getBillingPeriod [1, 15] 2024 0 20).periodLabel =
      (getBillingPeriod [15, 1] 2024 0 20).periodLabel :=
  getBillingPeriod_schedule_order_independent [1, 15] [15, 1] (by decide) 2024 0 20

/-- Amended C3: the source performs no defensive empty-schedule check and
raises no error at all; on an empty schedule `getBillingPeriod` silently
computes a result whose billing day is JS `undefined` (the non-empty
schedule is instead guaranteed upstream by the config loader's fallback to
the default `[1, 15]`). -/
theorem getBillingPeriod_empty_schedule (year month day : Nat) :
    (getBillingPeriod [] year month day).billingDay = none := by
  rw [getBillingPeriod_billingDay]
  by_cases h11 : month + 1 > 11 <;> simp [resolveBillingDay, h11]

/-- Counterexample to C3 as stated: on the empty schedule the code does not
fail with a `ConfigurationError` (the source has no failure path at all); it
returns this well-defined but malformed record, whose date string embeds the
JS rendering of `undefined`. -/
theorem getBillingPeriod_empty_schedule_counterexample :
    getBillingPeriod [] 2024 0 10 =
      { billingYear := 2024, billingMonth := 1, billingDay := none,
        periodStartDay := none, periodEndDay := 31,
        billingDate := "2024-02-undefined",
        periodLabel := "January undefined-31 (Billed: Invalid Date undefined)" } := by
  decide

/-- Witness for the amended C3 at a concrete date. -/
theorem getBillingPeriod_empty_schedule_witness :
    (getBillingPeriod [] 2025 11 31).billingDay = none :=
  getBillingPeriod_empty_schedule 2025 11 31

/-- Claim C2: period start/end computation of `getBillingPeriod`.  With `L`
the largest and `F` the smallest entry of a duplicate-free schedule: when
the resolved billing day equals `F` and the billing month differs from the
task's month, the period runs from `L` to the last calendar day of the
task's month (with true month lengths, e.g. February 29 in 2024 and 28 in
2023); otherwise the period ends at `billingDay - 1` and starts at the
schedule entry immediately preceding the billing day in sorted order
(i.e. the largest entry `p` strictly below it), wrapping to `L` when the
billing day is the smallest entry, except that the start is day 1 when that
preceding entry equals `F` while the billing day does not. -/
theorem getBillingPeriod_period_days
    (S : List Nat) (year month day : Nat) (L F : Nat)
    (hnd : S.Nodup)
    (hL : L ∈ S) (hLmax : ∀ x ∈ S, x ≤ L)
    (hF : F ∈ S) (hFmin : ∀ x ∈ S, F ≤ x)
    (hm : month ≤ 11) :
    (∃ bd, (getBillingPeriod S year month day).billingDay = some bd ∧
      ((bd = F ∧ (getBillingPeriod S year month day).billingMonth ≠ month →
          (getBillingPeriod S year month day).periodStartDay = some L ∧
          (getBillingPeriod S year month day).periodEndDay = daysInMonth0 year month) ∧
       (¬(bd = F ∧ (getBillingPeriod S year month day).billingMonth ≠ month) →
          (getBillingPeriod S year month day).periodEndDay = bd - 1 ∧
          (bd = F → (getBillingPeriod S year month day).periodStartDay = some L) ∧
          (∀ p ∈ S, p < bd → (∀ x ∈ S, x < bd → x ≤ p) →
            (getBillingPeriod S year month day).periodStartDay =
              some (if p = F then 1 else p))))) ∧
    daysInMonth0 2024 1 = 29 ∧ daysInMonth0 2023 1 = 28 := by
  refine ⟨?_, by decide, by decide⟩
  have hperm := List.perm_insertionSort (· ≤ ·) S
  have hsort := List.sorted_insertionSort (· ≤ ·) S
  have hnds : (List.insertionSort (· ≤ ·) S).Nodup := hperm.nodup_iff.2 hnd
  have hslt := sorted_lt_of_nodup hsort hnds
  have hlast := insertionSort_getLast_eq_max S hL hLmax
  have hhead := insertionSort_head_eq_min S hF hFmin
  have hS : S ≠ [] := List.ne_nil_of_mem hL
  obtain ⟨bd, hbd, hmem⟩ := resolveBillingDay_mem S hS year month day
  have hbd' : (getBillingPeriod S year month day).billingDay = some bd := by
    rw [getBillingPeriod_billingDay, hbd]
  have hstart : (getBillingPeriod S year month day).periodStartDay =
      (resolvePeriodDays (List.insertionSort (· ≤ ·) S) year month (some bd)
        (getBillingPeriod S year month day).billingMonth).1 := by
    rw [getBillingPeriod_periodStartDay, hbd, getBillingPeriod_billingMonth]
  have hend : (getBillingPeriod S year month day).periodEndDay =
      (resolvePeriodDays (List.insertionSort (· ≤ ·) S) year month (some bd)
        (getBillingPeriod S year month day).billingMonth).2 := by
    rw [getBillingPeriod_periodEndDay, hbd, getBillingPeriod_billingMonth]
  refine ⟨bd, hbd', ?_, ?_⟩
  · rintro ⟨rfl, hMne⟩
    have hc : ((some bd == (List.insertionSort (· ≤ ·) S).head?) &&
        !((getBillingPeriod S year month day).billingMonth == month)) = true := by
      rw [hhead]
      simp [hMne]
    constructor
    · rw [hstart]
      unfold resolvePeriodDays
      rw [if_pos hc, hlast]
    · rw [hend]
      unfold resolvePeriodDays
      rw [if_pos hc]
  · intro hnc
    have hc : ((some bd == (List.insertionSort (· ≤ ·) S).head?) &&
        !((getBillingPeriod S year month day).billingMonth == month)) = false := by
      rw [hhead]
      rcases not_and_or.1 hnc with h | h
      · simp [h]
      · simp [Classical.not_not.1 h]
    have hcn : ¬ (((some bd == (List.insertionSort (· ≤ ·) S).head?) &&
        !((getBillingPeriod S year month day).billingMonth == month)) = true) := by
      simp [hc]
    refine ⟨?_, ?_, ?_⟩
    · rw [hend]
      unfold resolvePeriodDays
      rw [if_neg hcn]
      rfl
    · rintro rfl
      rw [hstart]
      unfold resolvePeriodDays
      rw [if_neg hcn]
      simp only [Option.getD_some]
      have h0 : ((List.insertionSort (· ≤ ·) S).indexOf bd == 0) = true := by
        simp [indexOf_head_eq_zero hhead]
      have hprev : previousInvoiceDate (List.insertionSort (· ≤ ·) S) bd =
          ((List.insertionSort (· ≤ ·) S).getLast?).getD 0 := by
        unfold previousInvoiceDate
        rw [if_pos h0]
      have hbT : (some bd == (List.insertionSort (· ≤ ·) S).head?) = true := by
        rw [hhead]
        simp
      unfold periodStartOf
      rw [hprev, hlast]
      simp [hbT]
    · intro p hp hplt hpmax
      have hbdF : bd ≠ F := by
        rintro rfl
        exact absurd hplt (not_lt_of_ge (hFmin p hp))
      obtain ⟨hidx0, hgetp⟩ := sorted_indexOf_prev hslt hmem (hperm.mem_iff.2 hp) hplt
        (fun x hx hxlt => hpmax x (hperm.mem_iff.1 hx) hxlt)
      rw [hstart]
      unfold resolvePeriodDays
      rw [if_neg hcn]
      simp only [Option.getD_some]
      have hprev : previousInvoiceDate (List.insertionSort (· ≤ ·) S) bd = p := by
        unfold previousInvoiceDate
        rw [if_neg (by simp [hidx0]), hgetp]
        rfl
      have hbF : (some bd == (List.insertionSort (· ≤ ·) S).head?) = false := by
        rw [hhead]
        simp [hbdF]
      unfold periodStartOf
      rw [hprev, hhead]
      by_cases hpF : p = F
      · subst hpF
        simp [hbF, hbdF]
      · simp [hbF, hpF]

/-- Witness for C2 on the three-point schedule `[1, 10, 20]` at 2024-05-15:
the billing day is the 20th, the period is 10-19 of the same month. -/
theorem getBillingPeriod_period_days_witness :
    (∃ bd, (getBillingPeriod [1, 10, 20] 2024 4 15).billingDay = some bd ∧
      ((bd = 1 ∧ (getBillingPeriod [1, 10, 20] 2024 4 15).billingMonth ≠ 4 →
          (getBillingPeriod [1, 10, 20] 2024 4 15).periodStartDay = some 20 ∧
          (getBillingPeriod [1, 10, 20] 2024 4 15).periodEndDay = daysInMonth0 2024 4) ∧
       (¬(bd = 1 ∧ (getBillingPeriod [1, 10, 20] 2024 4 15).billingMonth ≠ 4) →
          (getBillingPeriod [1, 10, 20] 2024 4 15).periodEndDay = bd - 1 ∧
          (bd = 1 → (getBillingPeriod [1, 10, 20] 2024 4 15).periodStartDay = some 20) ∧
          (∀ p ∈ [1, 10, 20], p < bd → (∀ x ∈ [1, 10, 20], x < bd → x ≤ p) →
            (getBillingPeriod [1, 10, 20] 2024 4 15).periodStartDay =
              some (if p = 1 then 1 else p))))) ∧
    daysInMonth0 2024 1 = 29 ∧ daysInMonth0 2023 1 = 28 :=
  getBillingPeriod_period_days [1, 10, 20] 2024 4 15 20 1 (by decide) (by decide)
    (by decide) (by decide) (by decide) (by decide)

section DueDate

/-- Every month has at least one day. -/
theorem daysInMonth_pos (y m : Nat) : 1 ≤ daysInMonth y m := by
  unfold daysInMonth daysInMonth0
  by_cases h : isLeapYear y <;> split <;> simp [h] <;> split <;> omega

/-- The months of a year total 365 days, or 366 in a leap year. -/
theorem daysBeforeMonth_year (y : Nat) :
    daysBeforeMonth y 13 = 365 + (if isLeapYear y then 1 else 0) := by
  by_cases h : isLeapYear y <;>
    simp [daysBeforeMonth, daysInMonth, daysInMonth0, h]

/-- One `nextDay` step preserves validity and advances the linear day count
by exactly one. -/
theorem nextDay_spec {y m d : Nat} (hv : ValidYmd y m d) :
    ValidYmd (nextDay (y, m, d)).1 (nextDay (y, m, d)).2.1 (nextDay (y, m, d)).2.2 ∧
      toRataDie (nextDay (y, m, d)).1 (nextDay (y, m, d)).2.1 (nextDay (y, m, d)).2.2 =
        toRataDie y m d + 1 := by
  obtain ⟨hm1, hm12, hd1, hdm⟩ := hv
  unfold nextDay
  by_cases hlt : d < daysInMonth y m
  · simp only [hlt, if_pos]
    refine ⟨⟨hm1, hm12, by omega, by omega⟩, ?_⟩
    unfold toRataDie
    omega
  · simp only [hlt, if_neg, if_false]
    have hd : d = daysInMonth y m := by omega
    by_cases hm : m < 12
    · simp only [hm, if_pos]
      refine ⟨⟨by omega, by omega, le_refl 1, daysInMonth_pos y (m + 1)⟩, ?_⟩
      unfold toRataDie
      have hstep : daysBeforeMonth y (m + 1) = daysBeforeMonth y m + daysInMonth y m := by
        cases m with
        | zero => omega
        | succ k => rfl
      have := daysInMonth_pos y m
      omega
    · simp only [hm, if_neg, if_false]
      have hm' : m = 12 := by omega
      subst hm'
      refine ⟨⟨le_refl 1, by omega, le_refl 1, daysInMonth_pos (y + 1) 1⟩, ?_⟩
      unfold toRataDie
      have hyear : daysBeforeYear (y + 1) =
          daysBeforeYear y + 365 + (if isLeapYear y then 1 else 0) := by
        have hlb : leapsBelow (y + 1) = leapsBelow y + (if isLeapYear y then 1 else 0) := rfl
        unfold daysBeforeYear
        rw [hlb]
        split <;> omega
      have hmonths : daysBeforeMonth y 13 = 365 + (if isLeapYear y then 1 else 0) :=
        daysBeforeMonth_year y
      have hsum : daysBeforeMonth y 13 = daysBeforeMonth y 12 + daysInMonth y 12 := by
        simp [daysBeforeMonth]
      have h12 : daysInMonth y 12 = 31 := by
        unfold daysInMonth daysInMonth0
        norm_num
      have hb1 : daysBeforeMonth (y + 1) 1 = 0 := by simp [daysBeforeMonth]
      have hd31 : d = 31 := by omega
      by_cases hleap : isLeapYear y <;>
        simp only [hleap, if_true, if_false] at hyear hmonths <;> omega

/-- Adding `n` days via iterated `nextDay` lands on a valid date whose
linear day count is exactly `n` larger. -/
theorem addDays_spec (y m d : Nat) (hv : ValidYmd y m d) (n : Nat) :
    ValidYmd (addDays (y, m, d) n).1 (addDays (y, m, d) n).2.1 (addDays (y, m, d) n).2.2 ∧
      toRataDie (addDays (y, m, d) n).1 (addDays (y, m, d) n).2.1
          (addDays (y, m, d) n).2.2 =
        toRataDie y m d + n := by
  induction n with
  | zero => exact ⟨hv, rfl⟩
  | succ k ih =>
    obtain ⟨ihv, ihc⟩ := ih
    have hstep : addDays (y, m, d) (k + 1) = nextDay (addDays (y, m, d) k) := by
      unfold addDays
      exact Function.iterate_succ_apply' nextDay k (y, m, d)
    rcases hrep : addDays (y, m, d) k with ⟨y1, m1, d1⟩
    rw [hrep] at ihv ihc
    have h := nextDay_spec (y := y1) (m := m1) (d := d1) ihv
    rw [hstep, hrep]
    refine ⟨h.1, ?_⟩
    rw [h.2, show toRataDie y1 m1 d1 = toRataDie y m d + k from ihc]
    omega

/-- Claim C7: on a well-formed ISO billing date and positive payment terms,
`calculateDueDate` returns the calendar date exactly `paymentTermDays` days
later — the result is a valid calendar date whose linear day count exceeds
the input's by exactly `n`, so month/year rollover and leap years are
handled and no business-day adjustment occurs — and in particular the
spec's two worked examples hold. -/
theorem calculateDueDate_spec :
    (∀ (s : String) (y m d n : Nat), parseDate s = some (y, m, d) → ValidYmd y m d →
      0 < n →
      ∃ y2 m2 d2, ValidYmd y2 m2 d2 ∧ toRataDie y2 m2 d2 = toRataDie y m d + n ∧
        calculateDueDate s n = formatISO y2 m2 d2) ∧
    calculateDueDate "2024-01-01" 15 = "2024-01-16" ∧
    calculateDueDate "2024-12-20" 15 = "2025-01-04" := by
  refine ⟨?_, by decide, by decide⟩
  intro s y m d n hp hv _
  obtain ⟨hval, hcount⟩ := addDays_spec y m d hv n
  refine ⟨(addDays (y, m, d) n).1, (addDays (y, m, d) n).2.1, (addDays (y, m, d) n).2.2,
    hval, hcount, ?_⟩
  unfold calculateDueDate
  rw [hp]

/-- Witness for C7 at the spec's first worked example. -/
theorem calculateDueDate_spec_witness :
    ∃ y2 m2 d2, ValidYmd y2 m2 d2 ∧ toRataDie y2 m2 d2 = toRataDie 2024 1 1 + 15 ∧
      calculateDueDate "2024-01-01" 15 = formatISO y2 m2 d2 :=
  calculateDueDate_spec.1 "2024-01-01" 2024 1 1 15 (by decide) (by decide) (by decide)

end DueDate

section Merging

/-- Searching by key commutes with a map that preserves keys. -/
theorem find?_map_fst (f : String × MergedGroup → String × MergedGroup)
    (hf : ∀ p, (f p).1 = p.1) (k : String) :
    ∀ acc : List (String × MergedGroup),
      (acc.map f).find? (fun p => p.1 == k) = (acc.find? (fun p => p.1 == k)).map f
  | [] => rfl
  | p :: rest => by
    rw [List.map_cons, List.find?_cons, List.find?_cons, hf p]
    cases hp : (p.1 == k) with
    | true => rfl
    | false => exact find?_map_fst f hf k rest

/-- Appending one task to the scanned list appends one `insertTask` step. -/
theorem mergeGroups_snoc (ts : List TaskEntry) (t : TaskEntry) :
    mergeGroups (ts ++ [t]) = insertTask (mergeGroups ts) t := by
  unfold mergeGroups
  rw [List.foldl_append]
  rfl

/-- The keys of the merge map after one insertion. -/
theorem insertTask_keys (acc : List (String × MergedGroup)) (t : TaskEntry) :
    (insertTask acc t).map Prod.fst =
      if (acc.find? (fun p => p.1 == mergeKey t)).isSome then acc.map Prod.fst
      else acc.map Prod.fst ++ [mergeKey t] := by
  unfold insertTask
  by_cases h : (acc.find? (fun p => p.1 == mergeKey t)).isSome
  · rw [if_pos h, if_pos h]
    rw [List.map_map]
    apply List.map_congr_left
    intro p _
    show (if (p.1 == mergeKey t) = true then (p.1, addTask p.2 t) else p).1 = p.1
    split <;> rfl
  · rw [if_neg h, if_neg h]
    rw [List.map_map, List.map_append]
    congr 1
    · apply List.map_congr_left
      intro p _
      show (if (p.1 == mergeKey t) = true then (p.1, addTask p.2 t) else p).1 = p.1
      split <;> rfl
    · simp

/-- The merge-map keys never repeat: one line item per distinct key. -/
theorem mergeGroups_keys_nodup (ts : List TaskEntry) :
    ((mergeGroups ts).map Prod.fst).Nodup := by
  induction ts using List.reverseRecOn with
  | nil => simp [mergeGroups]
  | append_singleton l a ih =>
    rw [mergeGroups_snoc, insertTask_keys]
    by_cases h : ((mergeGroups l).find? (fun p => p.1 == mergeKey a)).isSome
    · rw [if_pos h]
      exact ih
    · rw [if_neg h]
      have hnotin : mergeKey a ∉ (mergeGroups l).map Prod.fst := by
        intro hmem
        obtain ⟨p, hp, hfst⟩ := List.mem_map.1 hmem
        have := List.find?_eq_none.1 (Option.not_isSome_iff_eq_none.1 h) p hp
        simp [hfst] at this
      simp [List.nodup_append, ih, hnotin]

/-- Folding the first task of a key into its fresh group gives the
one-member group model. -/
theorem addTask_fresh (a : TaskEntry) : addTask (freshGroup a) a = groupModel a [a] := by
  simp [addTask, freshGroup, groupModel, foldMinDate, sumHours, MergedGroup.mk.injEq]

/-- Folding one more member task into a group model extends the member
list. -/
theorem addTask_groupModel (t0 : TaskEntry) (old : List TaskEntry) (a : TaskEntry) :
    addTask (groupModel t0 old) a = groupModel t0 (old ++ [a]) := by
  simp [addTask, groupModel, MergedGroup.mk.injEq, foldMinDate, sumHours,
    List.foldl_append, List.sum_append]

/-- Master characterization of the merge map of `invoice.ts:189-216`: the
entry of key `k` is absent when no scanned task carries that key, and
otherwise holds exactly the group model of the member tasks (tasks whose
merge key is `k`, in input order). -/
theorem mergeGroups_find?_char (ts : List TaskEntry) (k : String) :
    (tasksWithKey k ts = [] → (mergeGroups ts).find? (fun p => p.1 == k) = none) ∧
    (∀ t0 rest, tasksWithKey k ts = t0 :: rest →
      (mergeGroups ts).find? (fun p => p.1 == k) = some (k, groupModel t0 (t0 :: rest))) := by
  induction ts using List.reverseRecOn with
  | nil =>
    exact ⟨fun _ => rfl, fun t0 rest h => by simp [tasksWithKey] at h⟩
  | append_singleton l a ih =>
    obtain ⟨ih0, ih1⟩ := ih
    rw [mergeGroups_snoc]
    have hupd : ∀ p : String × MergedGroup,
        ((if p.1 == mergeKey a then (p.1, addTask p.2 a) else p) : String × MergedGroup).1
          = p.1 := by
      intro p
      split <;> rfl
    by_cases hKk : (mergeKey a == k) = true
    · have hkK : mergeKey a = k := beq_iff_eq.1 hKk
      have hfilter : tasksWithKey k (l ++ [a]) = tasksWithKey k l ++ [a] := by
        unfold tasksWithKey
        simp [List.filter_append, List.filter_cons, hKk]
      cases hold : tasksWithKey k l with
      | nil =>
        -- first task of this key: a fresh group is installed and updated
        have hnone : (mergeGroups l).find? (fun p => p.1 == k) = none := ih0 hold
        have hnotSome : ¬ ((mergeGroups l).find? (fun p => p.1 == mergeKey a)).isSome := by
          rw [hkK, hnone]
          simp
        constructor
        · intro habs
          rw [hfilter, hold] at habs
          cases habs
        · intro t0 rest heq
          rw [hfilter, hold] at heq
          cases heq
          unfold insertTask
          rw [if_neg hnotSome, find?_map_fst _ hupd, List.find?_append, hkK, hnone]
          simp only [Option.none_or]
          have : ([(k, freshGroup a)] : List (String × MergedGroup)).find?
              (fun p => p.1 == k) = some (k, freshGroup a) := by
            simp [List.find?_cons]
          rw [this]
          simp only [Option.map_some']
          simp [addTask_fresh]
      | cons t0 rest =>
        -- the key is present: its unique entry absorbs the new task
        have hsome := ih1 t0 rest hold
        have hisSome : ((mergeGroups l).find? (fun p => p.1 == mergeKey a)).isSome := by
          rw [hkK, hsome]
          rfl
        constructor
        · intro habs
          rw [hfilter, hold] at habs
          cases habs
        · intro t0' rest' heq
          rw [hfilter, hold] at heq
          have ht0 : t0' = t0 := by
            have := congrArg (fun xs => List.head? xs) heq
            simpa using this.symm
          have hrest : rest' = rest ++ [a] := by
            have := congrArg (fun xs => List.tail xs) heq
            simpa using this.symm
          subst ht0
          subst hrest
          unfold insertTask
          rw [if_pos hisSome, find?_map_fst _ hupd, hsome]
          simp only [Option.map_some']
          simp [addTask_groupModel, hkK]
    · -- the appended task has a different key: nothing changes for k
      have hKkf : (mergeKey a == k) = false := by
        simpa using hKk
      have hfilter : tasksWithKey k (l ++ [a]) = tasksWithKey k l := by
        unfold tasksWithKey
        simp [List.filter_append, List.filter_cons, hKkf]
      have hkne : (k == mergeKey a) = false := by
        have h1 : mergeKey a ≠ k := beq_eq_false_iff_ne.1 hKkf
        exact beq_eq_false_iff_ne.2 (fun h => h1 h.symm)
      have hfind : (insertTask (mergeGroups l) a).find? (fun p => p.1 == k) =
          (mergeGroups l).find? (fun p => p.1 == k) := by
        unfold insertTask
        rw [find?_map_fst _ hupd]
        by_cases hf : ((mergeGroups l).find? (fun p => p.1 == mergeKey a)).isSome
        · rw [if_pos hf]
          cases hacck : (mergeGroups l).find? (fun p => p.1 == k) with
          | none => simp
          | some pr =>
            have hprk : pr.1 = k := by simpa using List.find?_some hacck
            simp only [Option.map_some']
            rw [show (if pr.1 == mergeKey a then (pr.1, addTask pr.2 a) else pr) = pr by
              rw [if_neg (by rw [hprk]; simp [hkne])]]
        · rw [if_neg hf, List.find?_append]
          have hsingle : ([(mergeKey a, freshGroup a)] : List (String × MergedGroup)).find?
              (fun p => p.1 == k) = none := by
            simp [List.find?_cons, hKkf]
          rw [hsingle]
          cases hacck : (mergeGroups l).find? (fun p => p.1 == k) with
          | none => simp
          | some pr =>
            have hprk : pr.1 = k := by simpa using List.find?_some hacck
            simp only [Option.or_some, Option.map_some']
            rw [show (if pr.1 == mergeKey a then (pr.1, addTask pr.2 a) else pr) = pr by
              rw [if_neg (by rw [hprk]; simp [hkne])]]
    -- close the different-key case using the unchanged map
      rw [hfilter, hfind]
      exact ⟨ih0, ih1⟩

/-- With duplicate-free keys, searching for a member's key finds exactly
that member. -/
theorem find?_eq_of_mem_nodup :
    ∀ {acc : List (String × MergedGroup)}, ((acc.map Prod.fst).Nodup) →
      ∀ {p : String × MergedGroup}, p ∈ acc →
        acc.find? (fun q => q.1 == p.1) = some p := by
  intro acc
  induction acc with
  | nil => intro _ p hp; cases hp
  | cons q rest ih =>
    intro hnd p hp
    rcases List.mem_cons.1 hp with rfl | hp'
    · simp [List.find?_cons]
    · have hq : (q.1 == p.1) = false := by
        refine beq_eq_false_iff_ne.2 ?_
        intro he
        have hmem : p.1 ∈ rest.map Prod.fst := List.mem_map.2 ⟨p, hp', rfl⟩
        rw [← he] at hmem
        exact (List.nodup_cons.1 (by simpa using hnd)).1 hmem
      rw [List.find?_cons, hq]
      exact ih (List.nodup_cons.1 (by simpa using hnd)).2 hp'

/-- The running minimum of `foldMinDate` bounds the seed and every member
date from below. -/
theorem foldMinDate_le (l : List TaskEntry) :
    ∀ d : String, foldMinDate d l ≤ d ∧ ∀ t ∈ l, foldMinDate d l ≤ t.date := by
  induction l with
  | nil => intro d; exact ⟨le_refl _, by simp⟩
  | cons t rest ih =>
    intro d
    have hfold : foldMinDate d (t :: rest) =
        foldMinDate (if t.date < d then t.date else d) rest := rfl
    obtain ⟨ih1, ih2⟩ := ih (if t.date < d then t.date else d)
    have hled : (if t.date < d then t.date else d) ≤ d := by
      split <;> [exact le_of_lt (by assumption); exact le_refl _]
    have hlet : (if t.date < d then t.date else d) ≤ t.date := by
      split
      · exact le_refl _
      · exact le_of_not_lt (by assumption)
    refine ⟨hfold ▸ ih1.trans hled, ?_⟩
    intro u hu
    rcases List.mem_cons.1 hu with rfl | hu'
    · exact hfold ▸ ih1.trans hlet
    · exact hfold ▸ ih2 u hu'

/-- The running minimum of `foldMinDate` is the seed or a member date. -/
theorem foldMinDate_mem (l : List TaskEntry) :
    ∀ d : String, foldMinDate d l = d ∨ ∃ t ∈ l, foldMinDate d l = t.date := by
  induction l with
  | nil => intro d; exact Or.inl rfl
  | cons t rest ih =>
    intro d
    have hfold : foldMinDate d (t :: rest) =
        foldMinDate (if t.date < d then t.date else d) rest := rfl
    rcases ih (if t.date < d then t.date else d) with h | ⟨u, hu, he⟩
    · rw [hfold, h]
      split
      · exact Or.inr ⟨t, List.mem_cons_self _ _, rfl⟩
      · exact Or.inl rfl
    · exact Or.inr ⟨u, List.mem_cons_of_mem _ hu, hfold ▸ he⟩

/-- Every entry of the merge map is the group model of its member tasks. -/
theorem mem_mergeGroups_eq_groupModel {ts : List TaskEntry}
    {p : String × MergedGroup} (hp : p ∈ mergeGroups ts) :
    ∃ t0 rest, tasksWithKey p.1 ts = t0 :: rest ∧ p.2 = groupModel t0 (t0 :: rest) := by
  have hnd := mergeGroups_keys_nodup ts
  have hfind := find?_eq_of_mem_nodup hnd hp
  obtain ⟨char0, char1⟩ := mergeGroups_find?_char ts p.1
  cases hold : tasksWithKey p.1 ts with
  | nil =>
    rw [char0 hold] at hfind
    cases hfind
  | cons t0 rest =>
    rw [char1 t0 rest hold] at hfind
    refine ⟨t0, rest, rfl, ?_⟩
    have := Option.some.inj hfind
    rw [← this]

/-- Cancelling around a separator character absent from both prefixes. -/
theorem sep_append_inj {c : Char} :
    ∀ {a b x y : List Char}, c ∉ a → c ∉ b →
      a ++ c :: x = b ++ c :: y → a = b ∧ x = y := by
  intro a
  induction a with
  | nil =>
    intro b x y _ hb h
    cases b with
    | nil => simpa using h
    | cons e b' =>
      simp only [List.nil_append, List.cons_append, List.cons.injEq] at h
      exact absurd (h.1 ▸ List.mem_cons_self _ _) hb
  | cons e a' ih =>
    intro b x y ha hb h
    cases b with
    | nil =>
      simp only [List.cons_append, List.nil_append, List.cons.injEq] at h
      exact absurd (h.1 ▸ List.mem_cons_self _ _) ha
    | cons e' b' =>
      simp only [List.cons_append, List.cons.injEq] at h
      obtain ⟨he, htail⟩ := h
      obtain ⟨h1, h2⟩ := ih (fun hm => ha (List.mem_cons_of_mem _ hm))
        (fun hm => hb (List.mem_cons_of_mem _ hm)) htail
      exact ⟨by rw [he, h1], h2⟩

/-- When activity types avoid the `'|'` separator, the composite merge key
determines the activity type and the normalized ticket reference. -/
theorem mergeKey_inj {t1 t2 : TaskEntry}
    (h1 : ('|' : Char) ∉ t1.activityType.data)
    (h2 : ('|' : Char) ∉ t2.activityType.data)
    (h : mergeKey t1 = mergeKey t2) :
    t1.activityType = t2.activityType ∧
      t1.ticketNumber.getD "" = t2.ticketNumber.getD "" := by
  unfold mergeKey at h
  have hdata := congrArg String.data h
  rw [String.data_append, String.data_append, String.data_append, String.data_append]
    at hdata
  have hlist : t1.activityType.data ++ '|' :: (t1.ticketNumber.getD "").data =
      t2.activityType.data ++ '|' :: (t2.ticketNumber.getD "").data := by
    simpa using hdata
  obtain ⟨ha, ht⟩ := sep_append_inj h1 h2 hlist
  exact ⟨String.ext ha, String.ext ht⟩

/-- Field computations of the per-task group update and the fresh group. -/
theorem addTask_totalHours (g : MergedGroup) (a : TaskEntry) :
    (addTask g a).totalHours = g.totalHours + a.hoursWorked := rfl

theorem addTask_rate (g : MergedGroup) (a : TaskEntry) :
    (addTask g a).rate = g.rate := rfl

theorem freshGroup_fields (a : TaskEntry) :
    (freshGroup a).totalHours = 0 ∧ (freshGroup a).rate = a.rate := ⟨rfl, rfl⟩

/-- A key absent from every entry leaves the update map inert. -/
theorem map_upd_id (a : TaskEntry) (acc : List (String × MergedGroup))
    (h : ∀ p ∈ acc, (p.1 == mergeKey a) = false) :
    acc.map (fun p => if p.1 == mergeKey a then (p.1, addTask p.2 a) else p) = acc := by
  induction acc with
  | nil => rfl
  | cons q rest ih =>
    rw [List.map_cons, if_neg (by simp [h q (List.mem_cons_self _ _)]),
      ih (fun p hp => h p (List.mem_cons_of_mem _ hp))]

/-- Updating the (unique) group of the task's key adds the task's hours to
the summed group hours. -/
theorem sum_totalHours_update (a : TaskEntry) :
    ∀ acc : List (String × MergedGroup), ((acc.map Prod.fst).Nodup) →
      ((acc.find? (fun p => p.1 == mergeKey a)).isSome) →
      (((acc.map (fun p => if p.1 == mergeKey a then (p.1, addTask p.2 a) else p)).map
          (fun p => p.2.totalHours)).sum) =
        ((acc.map (fun p => p.2.totalHours)).sum) + a.hoursWorked := by
  intro acc
  induction acc with
  | nil => intro _ h; cases h
  | cons q rest ih =>
    intro hnd hsome
    by_cases hq : (q.1 == mergeKey a) = true
    · have hqK : q.1 = mergeKey a := beq_iff_eq.1 hq
      have hnotin : mergeKey a ∉ rest.map Prod.fst := by
        rw [← hqK]
        exact (List.nodup_cons.1 (by simpa using hnd)).1
      have hallne : ∀ p ∈ rest, (p.1 == mergeKey a) = false := by
        intro p hp
        refine beq_eq_false_iff_ne.2 ?_
        intro he
        exact hnotin (he ▸ List.mem_map.2 ⟨p, hp, rfl⟩)
      rw [List.map_cons, map_upd_id a rest hallne, if_pos hq]
      simp only [List.map_cons, List.sum_cons, addTask_totalHours]
      ring
    · have hrec := ih (List.nodup_cons.1 (by simpa using hnd)).2
        (by
          rw [List.find?_cons] at hsome
          cases hqm : (q.1 == mergeKey a) with
          | true => exact absurd hqm hq
          | false => rw [hqm] at hsome; exact hsome)
      rw [List.map_cons, if_neg (by simp [hq])]
      simp only [List.map_cons, List.sum_cons]
      rw [hrec]
      ring

/-- Updating the group of the task's key adds the task's hours times the
task's rate to the summed amounts, provided the group carries the same
rate. -/
theorem sum_amount_update (a : TaskEntry) :
    ∀ acc : List (String × MergedGroup), ((acc.map Prod.fst).Nodup) →
      ((acc.find? (fun p => p.1 == mergeKey a)).isSome) →
      (∀ p ∈ acc, p.1 = mergeKey a → p.2.rate = a.rate) →
      (((acc.map (fun p => if p.1 == mergeKey a then (p.1, addTask p.2 a) else p)).map
          (fun p => p.2.totalHours * p.2.rate)).sum) =
        ((acc.map (fun p => p.2.totalHours * p.2.rate)).sum) +
          a.hoursWorked * a.rate := by
  intro acc
  induction acc with
  | nil => intro _ h; cases h
  | cons q rest ih =>
    intro hnd hsome hrate
    by_cases hq : (q.1 == mergeKey a) = true
    · have hqK : q.1 = mergeKey a := beq_iff_eq.1 hq
      have hnotin : mergeKey a ∉ rest.map Prod.fst := by
        rw [← hqK]
        exact (List.nodup_cons.1 (by simpa using hnd)).1
      have hallne : ∀ p ∈ rest, (p.1 == mergeKey a) = false := by
        intro p hp
        refine beq_eq_false_iff_ne.2 ?_
        intro he
        exact hnotin (he ▸ List.mem_map.2 ⟨p, hp, rfl⟩)
      have hqr : q.2.rate = a.rate := hrate q (List.mem_cons_self _ _) hqK
      rw [List.map_cons, map_upd_id a rest hallne, if_pos hq]
      simp only [List.map_cons, List.sum_cons, addTask_totalHours, addTask_rate]
      rw [hqr]
      ring
    · have hrec := ih (List.nodup_cons.1 (by simpa using hnd)).2
        (by
          rw [List.find?_cons] at hsome
          cases hqm : (q.1 == mergeKey a) with
          | true => exact absurd hqm hq
          | false => rw [hqm] at hsome; exact hsome)
        (fun p hp he => hrate p (List.mem_cons_of_mem _ hp) he)
      rw [List.map_cons, if_neg (by simp [hq])]
      simp only [List.map_cons, List.sum_cons]
      rw [hrec]
      ring

/-- The groups' hours always total the scanned tasks' hours. -/
theorem totalHours_mergeGroups (ts : List TaskEntry) :
    ((mergeGroups ts).map (fun p => p.2.totalHours)).sum = sumHours ts := by
  induction ts using List.reverseRecOn with
  | nil => simp [mergeGroups, sumHours]
  | append_singleton l a ih =>
    rw [mergeGroups_snoc]
    have hsum : sumHours (l ++ [a]) = sumHours l + a.hoursWorked := by
      simp [sumHours]
    rw [hsum, ← ih]
    unfold insertTask
    by_cases hf : ((mergeGroups l).find? (fun p => p.1 == mergeKey a)).isSome
    · rw [if_pos hf]
      exact sum_totalHours_update a (mergeGroups l) (mergeGroups_keys_nodup l) hf
    · rw [if_neg hf]
      have hallne : ∀ p ∈ mergeGroups l, (p.1 == mergeKey a) = false := by
        intro p hp
        have := List.find?_eq_none.1 (Option.not_isSome_iff_eq_none.1 hf) p hp
        simpa using this
      rw [List.map_append, map_upd_id a (mergeGroups l) hallne, List.map_append,
        List.sum_append]
      simp only [List.map_cons, List.map_nil, List.sum_cons, List.sum_nil, if_pos,
        beq_self_eq_true, addTask_totalHours, (freshGroup_fields a).1]
      ring

/-- When rates are uniform within each merge group, the groups' per-line
amounts total the per-task amounts. -/
theorem totalAmount_mergeGroups (ts : List TaskEntry)
    (huni : ∀ t1 ∈ ts, ∀ t2 ∈ ts, mergeKey t1 = mergeKey t2 → t1.rate = t2.rate) :
    ((mergeGroups ts).map (fun p => p.2.totalHours * p.2.rate)).sum =
      specTaskAmount ts := by
  induction ts using List.reverseRecOn with
  | nil => simp [mergeGroups, specTaskAmount]
  | append_singleton l a ih =>
    have huni' : ∀ t1 ∈ l, ∀ t2 ∈ l, mergeKey t1 = mergeKey t2 → t1.rate = t2.rate :=
      fun t1 h1 t2 h2 he =>
        huni t1 (List.mem_append_left _ h1) t2 (List.mem_append_left _ h2) he
    rw [mergeGroups_snoc]
    have hsum : specTaskAmount (l ++ [a]) = specTaskAmount l + a.hoursWorked * a.rate := by
      simp [specTaskAmount]
    rw [hsum, ← ih huni']
    unfold insertTask
    by_cases hf : ((mergeGroups l).find? (fun p => p.1 == mergeKey a)).isSome
    · rw [if_pos hf]
      refine sum_amount_update a (mergeGroups l) (mergeGroups_keys_nodup l) hf ?_
      intro p hp hpk
      obtain ⟨t0, rest, hfil, hmod⟩ := mem_mergeGroups_eq_groupModel hp
      have ht0 : t0 ∈ tasksWithKey p.1 l := hfil ▸ List.mem_cons_self _ _
      have ht0l : t0 ∈ l := (List.mem_filter.1 ht0).1
      have ht0k : mergeKey t0 = p.1 := by
        have := (List.mem_filter.1 ht0).2
        simpa using this
      have hrate0 : t0.rate = a.rate :=
        huni t0 (List.mem_append_left _ ht0l) a (List.mem_append_right _ (by simp))
          (by rw [ht0k, hpk])
      rw [hmod]
      exact hrate0
    · rw [if_neg hf]
      have hallne : ∀ p ∈ mergeGroups l, (p.1 == mergeKey a) = false := by
        intro p hp
        have := List.find?_eq_none.1 (Option.not_isSome_iff_eq_none.1 hf) p hp
        simpa using this
      rw [List.map_append, map_upd_id a (mergeGroups l) hallne, List.map_append,
        List.sum_append]
      simp only [List.map_cons, List.map_nil, List.sum_cons, List.sum_nil, if_pos,
        beq_self_eq_true, addTask_totalHours, addTask_rate, (freshGroup_fields a).1,
        (freshGroup_fields a).2]
      ring

/-- Two tasks of the scanned list land in one line item exactly when their
composite merge keys agree. -/
theorem sameGroup_iff_mergeKey (ts : List TaskEntry) {t1 t2 : TaskEntry}
    (h1 : t1 ∈ ts) (h2 : t2 ∈ ts) :
    (∃ p ∈ mergeGroups ts, t1 ∈ p.2.tasks ∧ t2 ∈ p.2.tasks) ↔
      mergeKey t1 = mergeKey t2 := by
  constructor
  · rintro ⟨p, hp, hp1, hp2⟩
    obtain ⟨t0, rest, hfil, hmod⟩ := mem_mergeGroups_eq_groupModel hp
    rw [hmod] at hp1 hp2
    have h1' : t1 ∈ tasksWithKey p.1 ts := hfil ▸ hp1
    have h2' : t2 ∈ tasksWithKey p.1 ts := hfil ▸ hp2
    have k1 : mergeKey t1 = p.1 := by
      have := (List.mem_filter.1 h1').2
      simpa using this
    have k2 : mergeKey t2 = p.1 := by
      have := (List.mem_filter.1 h2').2
      simpa using this
    rw [k1, k2]
  · intro hkey
    have h1f : t1 ∈ tasksWithKey (mergeKey t1) ts := List.mem_filter.2 ⟨h1, by simp⟩
    have h2f : t2 ∈ tasksWithKey (mergeKey t1) ts :=
      List.mem_filter.2 ⟨h2, by simp [hkey]⟩
    cases hold : tasksWithKey (mergeKey t1) ts with
    | nil => rw [hold] at h1f; cases h1f
    | cons t0 rest =>
      have hfind := (mergeGroups_find?_char ts (mergeKey t1)).2 t0 rest hold
      refine ⟨(mergeKey t1, groupModel t0 (t0 :: rest)),
        List.mem_of_find?_eq_some hfind, ?_, ?_⟩
      · show t1 ∈ (groupModel t0 (t0 :: rest)).tasks
        rw [show (groupModel t0 (t0 :: rest)).tasks = t0 :: rest from rfl, ← hold]
        exact h1f
      · show t2 ∈ (groupModel t0 (t0 :: rest)).tasks
        rw [show (groupModel t0 (t0 :: rest)).tasks = t0 :: rest from rfl, ← hold]
        exact h2f

/-- Claim C5 (amended): merging produces exactly one line item per distinct
composite key `activityType ++ "|" ++ (ticketReference or "")`; each line
item's `totalHours` is the sum over its member tasks, its `rate` is the
first member's rate, and its date is the minimum member date; tasks with no
ticket reference and equal activity type merge under the empty-reference
key; two tasks land in the same line item exactly when their keys agree,
and — provided activity types do not contain the separator `'|'` — equal
keys force equal activity types and equal normalized ticket references. -/
theorem mergeGroups_line_items (ts : List TaskEntry) :
    ((mergeGroups ts).map Prod.fst).Nodup ∧
    (∀ k : String, k ∈ (mergeGroups ts).map Prod.fst ↔ ∃ t ∈ ts, mergeKey t = k) ∧
    (∀ p ∈ mergeGroups ts,
      ∃ t0 rest, tasksWithKey p.1 ts = t0 :: rest ∧
        p.2.totalHours = sumHours (t0 :: rest) ∧
        p.2.rate = t0.rate ∧
        p.2.tasks = t0 :: rest ∧
        (∃ u ∈ t0 :: rest, p.2.date = u.date) ∧
        (∀ u ∈ t0 :: rest, p.2.date ≤ u.date)) ∧
    (∀ t1 ∈ ts, ∀ t2 ∈ ts,
      ((∃ p ∈ mergeGroups ts, t1 ∈ p.2.tasks ∧ t2 ∈ p.2.tasks) ↔
        mergeKey t1 = mergeKey t2)) ∧
    (∀ t1 ∈ ts, ∀ t2 ∈ ts, t1.ticketNumber.getD "" = "" → t2.ticketNumber.getD "" = "" →
      t1.activityType = t2.activityType →
      ∃ p ∈ mergeGroups ts, t1 ∈ p.2.tasks ∧ t2 ∈ p.2.tasks) ∧
    (∀ t1 t2 : TaskEntry, ('|' : Char) ∉ t1.activityType.data →
      ('|' : Char) ∉ t2.activityType.data →
      mergeKey t1 = mergeKey t2 →
      t1.activityType = t2.activityType ∧
        t1.ticketNumber.getD "" = t2.ticketNumber.getD "") := by
  refine ⟨mergeGroups_keys_nodup ts, ?_, ?_, ?_, ?_, ?_⟩
  · intro k
    constructor
    · intro hk
      obtain ⟨p, hp, hfst⟩ := List.mem_map.1 hk
      obtain ⟨t0, rest, hfil, _⟩ := mem_mergeGroups_eq_groupModel hp
      have ht0 : t0 ∈ tasksWithKey p.1 ts := hfil ▸ List.mem_cons_self _ _
      refine ⟨t0, (List.mem_filter.1 ht0).1, ?_⟩
      have := (List.mem_filter.1 ht0).2
      rw [← hfst]
      simpa using this
    · rintro ⟨t, ht, rfl⟩
      have htf : t ∈ tasksWithKey (mergeKey t) ts := List.mem_filter.2 ⟨ht, by simp⟩
      cases hold : tasksWithKey (mergeKey t) ts with
      | nil => rw [hold] at htf; cases htf
      | cons t0 rest =>
        have hfind := (mergeGroups_find?_char ts (mergeKey t)).2 t0 rest hold
        exact List.mem_map.2 ⟨_, List.mem_of_find?_eq_some hfind, rfl⟩
  · intro p hp
    obtain ⟨t0, rest, hfil, hmod⟩ := mem_mergeGroups_eq_groupModel hp
    refine ⟨t0, rest, hfil, by rw [hmod]; rfl, by rw [hmod]; rfl, by rw [hmod]; rfl, ?_, ?_⟩
    · rw [hmod]
      rcases foldMinDate_mem (t0 :: rest) t0.date with h | ⟨u, hu, he⟩
      · exact ⟨t0, List.mem_cons_self _ _, h⟩
      · exact ⟨u, hu, he⟩
    · intro u hu
      rw [hmod]
      exact (foldMinDate_le (t0 :: rest) t0.date).2 u hu
  · intro t1 h1 t2 h2
    exact sameGroup_iff_mergeKey ts h1 h2
  · intro t1 h1 t2 h2 hn1 hn2 hact
    refine (sameGroup_iff_mergeKey ts h1 h2).2 ?_
    unfold mergeKey
    rw [hn1, hn2, hact]
  · exact fun t1 t2 ha hb h => mergeKey_inj ha hb h

/-- Two concrete tasks whose composite keys collide although both their
activity types and their ticket references differ (the `'|'` separator in
the first activity type lines up with the separator of the key). -/
def collidingTask1 : TaskEntry :=
  { id := "1", date := "2024-01-05", time := "09:00", activityType := "A",
    ticketNumber := some "B|", hoursWorked := 1, client := "Acme", rate := 100 }

def collidingTask2 : TaskEntry :=
  { id := "2", date := "2024-01-06", time := "09:00", activityType := "A|B",
    ticketNumber := none, hoursWorked := 1, client := "Acme", rate := 100 }

/-- Counterexample to C5 as stated: these two tasks differ both in
`activityType` and in `ticketReference`, yet they merge into a single line
item, because both composite keys evaluate to the string `A|B|`. -/
theorem mergeGroups_collision_counterexample :
    collidingTask1.activityType ≠ collidingTask2.activityType ∧
    collidingTask1.ticketNumber ≠ collidingTask2.ticketNumber ∧
    mergeKey collidingTask1 = mergeKey collidingTask2 ∧
    (mergeGroups [collidingTask1, collidingTask2]).length = 1 := by
  refine ⟨by decide, by decide, by decide, ?_⟩
  decide

/-- Witness for the amended C5 on a concrete two-task list with a shared
key. -/
theorem mergeGroups_line_items_witness :
    ((mergeGroups [collidingTask1, collidingTask2]).map Prod.fst).Nodup ∧
    (∃ p ∈ mergeGroups [collidingTask1, collidingTask2],
      collidingTask1 ∈ p.2.tasks ∧ collidingTask2 ∈ p.2.tasks) :=
  ⟨(mergeGroups_line_items [collidingTask1, collidingTask2]).1,
    ((mergeGroups_line_items [collidingTask1, collidingTask2]).2.2.2.1
      collidingTask1 (by decide) collidingTask2 (by decide)).2 (by decide)⟩

/-- Claim C6: the line items rendered by `displayInvoice` (the `lineItems`
of every built invoice) are the merge map's groups, re-ordered ascending by
their earliest date with ties broken by activity type. -/
theorem mergedTasks_sorted (ts : List TaskEntry) :
    (mergedTasks ts).Perm ((mergeGroups ts).map Prod.snd) ∧
    List.Sorted mgLE (mergedTasks ts) :=
  ⟨List.perm_insertionSort mgLE _, List.sorted_insertionSort mgLE _⟩

/-- Claim C4 (amended): `totalHours` is always the sum of the source tasks'
hours; `totalAmount` is computed per merged line with the line's first-seen
rate, which agrees with the per-source-task sum exactly when every merge
group carries one uniform rate. -/
theorem invoice_totals (ts : List TaskEntry) :
    totalHoursOf ts = sumHours ts ∧
    ((∀ t1 ∈ ts, ∀ t2 ∈ ts, mergeKey t1 = mergeKey t2 → t1.rate = t2.rate) →
      totalAmountOf ts = specTaskAmount ts) := by
  have hperm : (mergedTasks ts).Perm ((mergeGroups ts).map Prod.snd) :=
    List.perm_insertionSort mgLE _
  constructor
  · unfold totalHoursOf
    rw [(hperm.map MergedGroup.totalHours).sum_eq, List.map_map]
    exact totalHours_mergeGroups ts
  · intro huni
    unfold totalAmountOf
    rw [(hperm.map (fun g => g.totalHours * g.rate)).sum_eq, List.map_map]
    exact totalAmount_mergeGroups ts huni

/-- Two tasks sharing one merge key but carrying different snapshot rates,
plus a uniform-rate companion pair. -/
def mixedRateTask1 : TaskEntry :=
  { id := "1", date := "2024-01-05", time := "09:00", activityType := "Implementation",
    ticketNumber := some "T-1", hoursWorked := 1, client := "Acme", rate := 100 }

def mixedRateTask2 : TaskEntry :=
  { id := "2", date := "2024-01-06", time := "09:00", activityType := "Implementation",
    ticketNumber := some "T-1", hoursWorked := 1, client := "Acme", rate := 200 }

/-- Counterexample to C4 as stated: with two merged tasks of rates 100 and
200 for one hour each, the code computes `totalAmount` per merged line with
the first-seen rate, giving 200, while the claimed per-source-task sum is
300. -/
theorem invoice_totals_counterexample :
    totalAmountOf [mixedRateTask1, mixedRateTask2] = 200 ∧
    specTaskAmount [mixedRateTask1, mixedRateTask2] = 300 ∧
    totalAmountOf [mixedRateTask1, mixedRateTask2] ≠
      specTaskAmount [mixedRateTask1, mixedRateTask2] := by
  refine ⟨?_, ?_, ?_⟩ <;>
    norm_num [totalAmountOf, specTaskAmount, mergedTasks, mergeGroups, insertTask,
      mergeKey, freshGroup, addTask, mixedRateTask1, mixedRateTask2,
      List.insertionSort, List.orderedInsert]

/-- Witness for the amended C4 on a concrete uniform-rate list. -/
theorem invoice_totals_witness :
    totalAmountOf [mixedRateTask1, mixedRateTask1] =
      specTaskAmount [mixedRateTask1, mixedRateTask1] :=
  (invoice_totals [mixedRateTask1, mixedRateTask1]).2 (by decide)

/-- Claim C9: `buildInvoice` yields a `NotFound` outcome exactly when the
case-sensitive client filter is empty or the requested billing date is
absent from the billing dates resolved for the client's tasks; in
particular an empty task collection yields `NotFound` for every client.
The embedding is a pure function of the task list, so a successful build
leaves the input collection unchanged by construction. -/
theorem buildInvoice_notFound_iff (schedule : List Nat) (paymentTerms : Nat)
    (tasks : List TaskEntry) (client billingDate : String) :
    ((∃ msg, buildInvoice schedule paymentTerms tasks client billingDate =
        InvoiceResult.notFound msg) ↔
      (tasks.filter (fun t => t.client == client) = [] ∨
        billingDate ∉ (tasks.filter (fun t => t.client == client)).map
          (fun t => billingKeyOf schedule t.date))) ∧
    (tasks = [] → ∃ msg, buildInvoice schedule paymentTerms tasks client billingDate =
      InvoiceResult.notFound msg) := by
  have main : (∃ msg, buildInvoice schedule paymentTerms tasks client billingDate =
      InvoiceResult.notFound msg) ↔
      (tasks.filter (fun t => t.client == client) = [] ∨
        billingDate ∉ (tasks.filter (fun t => t.client == client)).map
          (fun t => billingKeyOf schedule t.date)) := by
    unfold buildInvoice
    cases hcl : tasks.filter (fun t => t.client == client) with
    | nil => simp
    | cons c cs =>
      simp only [List.isEmpty_cons, Bool.false_eq_true, if_false]
      cases hpt : (c :: cs).filter
          (fun t => billingKeyOf schedule t.date == billingDate) with
      | nil =>
        constructor
        · intro _
          right
          intro hmem
          obtain ⟨t, ht, hkey⟩ := List.mem_map.1 hmem
          have hmem2 : t ∈ (c :: cs).filter
              (fun t => billingKeyOf schedule t.date == billingDate) :=
            List.mem_filter.2 ⟨ht, by simp [hkey]⟩
          rw [hpt] at hmem2
          cases hmem2
        · intro _
          exact ⟨"No billing periods found for billing period", rfl⟩
      | cons f fs =>
        constructor
        · rintro ⟨msg, hmsg⟩
          cases hmsg
        · rintro (h | h)
          · cases h
          · exfalso
            apply h
            have hf : f ∈ (c :: cs).filter
                (fun t => billingKeyOf schedule t.date == billingDate) :=
              hpt ▸ List.mem_cons_self _ _
            obtain ⟨hfc, hfk⟩ := List.mem_filter.1 hf
            refine List.mem_map.2 ⟨f, hfc, ?_⟩
            simpa using hfk
  refine ⟨main, ?_⟩
  intro hempty
  subst hempty
  exact main.2 (Or.inl rfl)

/-- Witness for C9: the empty collection yields `NotFound`, and a concrete
one-task collection with the wrong billing date also yields `NotFound`. -/
theorem buildInvoice_notFound_iff_witness :
    (∃ msg, buildInvoice [1, 15] 15 [] "Acme" "2024-01-15" =
      InvoiceResult.notFound msg) ∧
    (∃ msg, buildInvoice [1, 15] 15 [mixedRateTask1] "Nobody" "2024-01-15" =
      InvoiceResult.notFound msg) :=
  ⟨(buildInvoice_notFound_iff [1, 15] 15 [] "Acme" "2024-01-15").2 rfl,
   (buildInvoice_notFound_iff [1, 15] 15 [mixedRateTask1] "Nobody" "2024-01-15").1.2
     (Or.inl (by decide))⟩

end Merging

end TaskMgmt
